import Mathlib

/-!
Verification of the flight-aggregation engine.

Shallow embedding of the core components of the repository:

* `FlightAggregator.searchFlights` / `FlightAggregator.deduplicate` /
  `FlightAggregator.exploreDestinations` (src/unnamed/part_000),
* `TTLCache` (src/src/services/cache.ts),
* `RateLimiter` (src/src/utils/rate-limiter.ts).

JavaScript numbers are modelled as rationals (`Rat`), `Date.now()` instants as
integers (milliseconds) or rationals where they interact with token-bucket
arithmetic, JS `Map` (which preserves key-insertion order, with `set` on an
existing key keeping its position) as an association list updated in place,
rejected promises (`Promise.allSettled` results) as `Except` values, and
`Array.prototype.sort` (stable per the ECMAScript spec) as a stable insertion
sort over the comparator's non-strict preorder: a stable sort by a total
preorder is extensionally unique, so insertion sort with the non-strict
comparator is the one faithful functional model.
-/

/-- `NormalizedFlight` record (src/unnamed/part_004).  The `FlightSource`
string union is modelled as `String`. -/
structure NormalizedFlight where
  id : String
  source : String
  airline : String
  airline_code : String
  flight_number : String
  origin : String
  destination : String
  departure_time : String
  arrival_time : String
  duration_minutes : Rat
  stops : Int
  price : Rat
  currency : String
  deep_link : Option String
  cabin_class : String
  baggage_included : Bool
deriving DecidableEq

/-- `ExploreResult` record (src/unnamed/part_004). -/
structure ExploreResult where
  destination : String
  destination_name : String
  price : Rat
  currency : String
  departure_date : String
  return_date : String
  source : String
  deep_link : Option String
deriving DecidableEq

/-- Lookup in an insertion-ordered association list (JS `Map.get`). -/
def alGet {α : Type} : List (String × α) → String → Option α
  | [], _ => none
  | e :: t, k => if e.1 = k then some e.2 else alGet t k

/-- Update in an insertion-ordered association list (JS `Map.set`): an existing
key keeps its position, a new key is appended at the end. -/
def alSet {α : Type} : List (String × α) → String → α → List (String × α)
  | [], k, v => [(k, v)]
  | e :: t, k, v => if e.1 = k then (k, v) :: t else e :: alSet t k v

/-- Deletion from an association list (JS `Map.delete`). -/
def alErase {α : Type} (m : List (String × α)) (k : String) : List (String × α) :=
  m.filter fun e => !(e.1 == k)

/-- One step of the keep-cheapest grouping loop shared by
`FlightAggregator.deduplicate` (src/unnamed/part_000 lines 109-124) and the
explore `byDest` loop (lines 84-90): insert `x` unless the map already holds a
strictly cheaper entry under `key x`. -/
def mapStep {α : Type} (key : α → String) (price : α → Rat)
    (m : List (String × α)) (x : α) : List (String × α) :=
  match alGet m (key x) with
  | none => alSet m (key x) x
  | some e => if price x < price e then alSet m (key x) x else m

/-- Generic keep-cheapest-per-key pass: fold the grouping loop over the input
and return the map's values (`[...map.values()]`, key-insertion order). -/
def dedupBy {α : Type} (key : α → String) (price : α → Rat) (l : List α) : List α :=
  (l.foldl (mapStep key price) []).map Prod.snd

/-- The dedupe key string of `FlightAggregator.deduplicate`:
`airline_code + "-" + flight_number + "-" + departure_time.slice(0, 10) + "-" +
origin + "-" + destination` (src/unnamed/part_000 lines 113-114). -/
def dedupKey (f : NormalizedFlight) : String :=
  f.airline_code ++ "-" ++ f.flight_number ++ "-" ++ f.departure_time.take 10 ++ "-" ++
    f.origin ++ "-" ++ f.destination

/-- The composite key the specification speaks about: the 5-tuple
(airline code, flight number, departure date truncated to calendar day,
origin, destination). -/
def tupleKey (f : NormalizedFlight) : String × String × String × String × String :=
  (f.airline_code, f.flight_number, f.departure_time.take 10, f.origin, f.destination)

/-- `FlightAggregator.deduplicate` (src/unnamed/part_000 lines 109-124). -/
def deduplicate (flights : List NormalizedFlight) : List NormalizedFlight :=
  dedupBy dedupKey NormalizedFlight.price flights

/-- Non-strict preorder induced by the search comparator
`(a, b) => a.price - b.price, ties a.duration_minutes - b.duration_minutes`
(src/unnamed/part_000 lines 49-52): `flightLe a b` iff the comparator does not
put `b` strictly before `a`. -/
def flightLe (a b : NormalizedFlight) : Bool :=
  if a.price < b.price then true
  else if a.price = b.price then decide (a.duration_minutes ≤ b.duration_minutes)
  else false

/-- Non-strict preorder induced by the explore comparator
`(a, b) => a.price - b.price` (src/unnamed/part_000 line 93). -/
def exploreLe (a b : ExploreResult) : Bool :=
  decide (a.price ≤ b.price)

/-- Stable insertion into a list sorted by the non-strict comparator `le`:
the inserted element goes after every already-present element it is
equivalent to. -/
def sInsert {α : Type} (le : α → α → Bool) (a : α) : List α → List α
  | [] => [a]
  | b :: t => if le a b then a :: b :: t else b :: sInsert le a t

/-- Stable sort by the non-strict comparator `le`; the functional model of
JavaScript `Array.prototype.sort` (stable by the ECMAScript spec). -/
def insSort {α : Type} (le : α → α → Bool) : List α → List α
  | [] => []
  | a :: t => sInsert le a (insSort le t)

/-- The dedupe-then-sort tail of `FlightAggregator.searchFlights`
(src/unnamed/part_000 lines 48-52) applied to the flattened successful
results. -/
def searchMerge (flights : List NormalizedFlight) : List NormalizedFlight :=
  insSort flightLe (deduplicate flights)

/-- The settled outcome of one active provider during a `searchFlights` /
`exploreDestinations` fan-out (`Promise.allSettled`, src/unnamed/part_000
lines 28-30 and 70-72): provider name, the `isAvailable()` answer, the settled
`searchFlights` outcome (`Except.error` = rejected promise), and the settled
`exploreDestinations` outcome (`none` = the provider does not implement the
optional explore capability). -/
structure ProviderRun where
  name : String
  available : Bool
  result : Except String (List NormalizedFlight)
  explore_result : Option (Except String (List ExploreResult))

/-- The source filter test inside `FlightAggregator.getActiveProviders`
(src/unnamed/part_000 lines 98-107): with no filter, or an empty filter list,
every provider passes; otherwise the provider's name must be contained in the
filter. -/
def matchesFilter : Option (List String) → String → Bool
  | none, _ => true
  | some fs, n => if fs.length > 0 then fs.contains n else true

/-- `FlightAggregator.getActiveProviders` (src/unnamed/part_000 lines
98-107). -/
def activeProviders (ps : List ProviderRun) (filter : Option (List String)) :
    List ProviderRun :=
  ps.filter fun p => p.available && matchesFilter filter p.name

/-- One iteration of the result-collection loop of
`FlightAggregator.searchFlights` (src/unnamed/part_000 lines 32-43): a
fulfilled provider appends its flights, a rejected one appends a diagnostic
string. -/
def collectStep (acc : List NormalizedFlight × List String) (p : ProviderRun) :
    List NormalizedFlight × List String :=
  match p.result with
  | .ok v => (acc.1 ++ v, acc.2)
  | .error e => (acc.1, acc.2 ++ [p.name ++ ": " ++ e])

/-- The full result-collection loop over the settled fan-out, returning the
flattened flights and the collected diagnostics. -/
def collectSettled (active : List ProviderRun) : List NormalizedFlight × List String :=
  active.foldl collectStep ([], [])

/-- The flights of the fulfilled providers, flattened in provider order. -/
def successOffers : List ProviderRun → List NormalizedFlight
  | [] => []
  | p :: t => (match p.result with | .ok v => v | .error _ => []) ++ successOffers t

/-- `FlightAggregator.searchFlights` on a cache miss (src/unnamed/part_000
lines 27-55 minus the cache lookup and store): active-provider selection,
settle-all collection, dedupe, stable sort.  A total function: per-provider
failures only feed the diagnostics list and never escape as an error. -/
def searchNoCache (ps : List ProviderRun) (filter : Option (List String)) :
    List NormalizedFlight :=
  insSort flightLe (deduplicate (collectSettled (activeProviders ps filter)).1)

/-- The explore fan-out participant set: active providers that implement the
optional explore capability (src/unnamed/part_000 lines 66-68). -/
def exploreActive (ps : List ProviderRun) (filter : Option (List String)) :
    List ProviderRun :=
  (activeProviders ps filter).filter fun p => p.explore_result.isSome

/-- The destination offers of the fulfilled explore providers, flattened in
provider order (src/unnamed/part_000 lines 74-80; rejected providers are
skipped silently). -/
def exploreSuccessOffers : List ProviderRun → List ExploreResult
  | [] => []
  | p :: t =>
      (match p.explore_result with | some (.ok v) => v | _ => []) ++ exploreSuccessOffers t

/-- The `byDest` keep-cheapest grouping of `FlightAggregator.exploreDestinations`
(src/unnamed/part_000 lines 83-90). -/
def exploreDedup (l : List ExploreResult) : List ExploreResult :=
  dedupBy ExploreResult.destination ExploreResult.price l

/-- `FlightAggregator.exploreDestinations` on a cache miss (src/unnamed/part_000
lines 58-96 minus the cache lookup and store): dedupe by destination, sort
ascending by price, then `slice(0, params.limit)`. -/
def exploreNoCache (ps : List ProviderRun) (filter : Option (List String))
    (limit : Nat) : List ExploreResult :=
  (insSort exploreLe (exploreDedup (exploreSuccessOffers (exploreActive ps filter)))).take limit

mutual
/-- JavaScript runtime values as far as `TTLCache.buildKey` serializes them:
`undefined`, `null`, booleans, (integer) numbers, strings, arrays and plain
objects whose field list is in insertion order, exactly as `JSON.stringify`
sees them.  Numeric leaves are restricted to integers, which covers every
field of the request shapes fed to `buildKey`. -/
inductive Json where
  | null
  | undef
  | bool (b : Bool)
  | num (n : Int)
  | str (s : String)
  | arr (xs : JsonArr)
  | obj (fs : JsonObj)
/-- Array elements of a `Json` value, in order. -/
inductive JsonArr where
  | nil
  | cons (hd : Json) (tl : JsonArr)
/-- Object fields of a `Json` value, in insertion order. -/
inductive JsonObj where
  | nil
  | cons (k : String) (v : Json) (tl : JsonObj)
end

/-- JSON string escaping of one character (quote and backslash; the request
fields contain no control characters). -/
def escChar (c : Char) : String :=
  if c = '"' then "\\\"" else if c = '\\' then "\\\\" else Char.toString c

/-- JSON string escaping. -/
def escapeJson (s : String) : String :=
  String.join (s.data.map escChar)

mutual
/-- `JSON.stringify` on the modelled runtime values.  Object fields are
serialized in insertion order, exactly as in JavaScript.  On `undefined`,
`JSON.stringify` yields the value `undefined`, which `Array.prototype.join`
then coerces to the text `undefined`; since the model only stringifies inside
`buildKey`'s `map(...).join(":")`, that composite behaviour is folded in
here. -/
def jsonStringify : Json → String
  | .null => "null"
  | .undef => "undefined"
  | .bool true => "true"
  | .bool false => "false"
  | .num n => toString n
  | .str s => "\"" ++ escapeJson s ++ "\""
  | .arr xs => "[" ++ jsonArrBody xs ++ "]"
  | .obj fs => "\x7b" ++ jsonObjBody fs ++ "\x7d"

/-- Comma-separated serialization of array elements. -/
def jsonArrBody : JsonArr → String
  | .nil => ""
  | .cons x .nil => jsonStringify x
  | .cons x (.cons y t) => jsonStringify x ++ "," ++ jsonArrBody (JsonArr.cons y t)

/-- Comma-separated serialization of object fields, in insertion order. -/
def jsonObjBody : JsonObj → String
  | .nil => ""
  | .cons k v .nil => "\"" ++ escapeJson k ++ "\":" ++ jsonStringify v
  | .cons k v (.cons k2 v2 t) =>
      "\"" ++ escapeJson k ++ "\":" ++ jsonStringify v ++ "," ++
        jsonObjBody (JsonObj.cons k2 v2 t)
end

/-- `TTLCache.buildKey` (src/src/services/cache.ts lines 31-33):
`parts.map((p) => JSON.stringify(p)).join(":")`. -/
def buildKey (parts : List Json) : String :=
  String.intercalate ":" (parts.map jsonStringify)

/-- Embed a list of `Json` values as a `Json` array. -/
def toJsonArr : List Json → JsonArr
  | [] => .nil
  | x :: t => .cons x (toJsonArr t)

/-- The runtime value of the optional `sourcesFilter` argument as seen by
`JSON.stringify`: `undefined` when absent, an array of source-name strings
when present. -/
def filterJson : Option (List String) → Json
  | none => .undef
  | some fs => .arr (toJsonArr (fs.map Json.str))

/-- The cache key built by `searchFlights`:
`this.cache.buildKey("search", params, sourcesFilter)`
(src/unnamed/part_000 line 23). -/
def searchKey (params : Json) (filter : Option (List String)) : String :=
  buildKey [Json.str "search", params, filterJson filter]

/-- `CacheEntry` of `TTLCache` (src/src/services/cache.ts lines 1-4),
instantiated at the aggregator's `NormalizedFlight[]` payload.  `expires_at`
is an absolute instant in milliseconds. -/
structure CacheEntry where
  value : List NormalizedFlight
  expires_at : Int
deriving DecidableEq

/-- `TTLCache.get` (src/src/services/cache.ts lines 14-21), with `Date.now()`
passed in as `now`: returns the stored value when the entry is present and not
stale (`now ≤ expires_at`); on a stale entry it deletes the entry and returns
absent.  The second component is the store after the lazy eviction. -/
def cacheGet (st : List (String × CacheEntry)) (now : Int) (key : String) :
    Option (List NormalizedFlight) × List (String × CacheEntry) :=
  match alGet st key with
  | none => (none, st)
  | some e => if now > e.expires_at then (none, alErase st key) else (some e.value, st)

/-- `TTLCache.set` (src/src/services/cache.ts lines 23-28):
`expires_at = Date.now() + ttl`. -/
def cacheSet (st : List (String × CacheEntry)) (now : Int) (key : String)
    (v : List NormalizedFlight) (ttl : Int) : List (String × CacheEntry) :=
  alSet st key ⟨v, now + ttl⟩

/-- The aggregator's cache TTL: `new TTLCache(300)` (src/unnamed/part_000
line 13), i.e. `default_ttl_ms = 300 * 1000`. -/
def aggTTLms : Int := 300 * 1000

/-- `FlightAggregator.searchFlights` including the cache lookup and store
(src/unnamed/part_000 lines 19-55).  `params` is the runtime value of the
request object; the store and `Date.now()` are passed explicitly.  The third
component records whether the providers were invoked (`false` exactly on a
cache hit). -/
def searchWithCache (ps : List ProviderRun) (filter : Option (List String))
    (params : Json) (st : List (String × CacheEntry)) (now : Int) :
    List NormalizedFlight × List (String × CacheEntry) × Bool :=
  match cacheGet st now (searchKey params filter) with
  | (some v, st1) => (v, st1, false)
  | (none, st1) =>
      (searchNoCache ps filter,
       cacheSet st1 now (searchKey params filter) (searchNoCache ps filter) aggTTLms,
       true)

/-- The `RateLimiter` state (src/src/utils/rate-limiter.ts lines 1-5):
current token balance, last-refill instant (milliseconds), capacity and
refill rate (tokens per second), all JavaScript numbers modelled as
rationals. -/
structure RateLimiter where
  tokens : Rat
  last_refill : Rat
  max_tokens : Rat
  refill_rate : Rat
deriving DecidableEq

/-- The `RateLimiter` constructor (src/src/utils/rate-limiter.ts lines 7-12):
a fresh bucket is full (`tokens = max_tokens`) and stamped with the current
instant. -/
def mkRateLimiter (max_tokens refill_rate now : Rat) : RateLimiter :=
  ⟨max_tokens, now, max_tokens, refill_rate⟩

/-- `RateLimiter.refill` (src/src/utils/rate-limiter.ts lines 27-32):
add `elapsed_seconds * refill_rate` tokens, clamped to `max_tokens`, and stamp
the refill instant. -/
def RateLimiter.refill (s : RateLimiter) (now : Rat) : RateLimiter :=
  { s with
    tokens := min s.max_tokens (s.tokens + (now - s.last_refill) / 1000 * s.refill_rate),
    last_refill := now }

/-- The wait the slow path of `acquire` computes,
`((1 - this.tokens) / this.refill_rate) * 1000` milliseconds
(src/src/utils/rate-limiter.ts line 21). -/
def RateLimiter.waitMs (s : RateLimiter) : Rat :=
  (1 - s.tokens) / s.refill_rate * 1000

/-- `RateLimiter.acquire` (src/src/utils/rate-limiter.ts lines 14-25) with the
two `Date.now()` readings passed in: `now` at entry and `after_wait` at the
refill following the `setTimeout` suspension.  The fast path fires when the
refreshed balance is at least 1; the slow path refills again after the wait
and then decrements WITHOUT re-clamping (`this.tokens -= 1` is the last
statement). -/
def RateLimiter.acquire (s : RateLimiter) (now after_wait : Rat) : RateLimiter :=
  let s1 := s.refill now
  if 1 ≤ s1.tokens then { s1 with tokens := s1.tokens - 1 }
  else
    let s2 := s1.refill after_wait
    { s2 with tokens := s2.tokens - 1 }

/-- A sequence of `acquire` calls, each with its pair of clock readings. -/
def runAcquires (s : RateLimiter) (steps : List (Rat × Rat)) : RateLimiter :=
  steps.foldl (fun st p => st.acquire p.1 p.2) s

/-- A concrete flight offer used in witnesses: a genuine Ryanair-normalized
offer, whose `flight_number` is the synthetic `FR-<origin>-<destination>`
string built by `RyanairProvider.searchFlights` (src/unnamed/part_003
line 59). -/
def wRyanair : NormalizedFlight :=
  ⟨"ryanair-WAW-BCN-2025-03-01", "ryanair", "Ryanair", "FR", "FR-WAW-BCN",
    "WAW", "BCN", "2025-03-01T06:25:00", "2025-03-01T09:00:00", 155, 0, 420,
    "PLN", none, "economy", false⟩

/-- A concrete flight offer whose composite 5-tuple differs from `wRyanair`
(different airline code and flight number) but whose dash-joined dedupe key is
identical, because the joined fields themselves contain dashes. -/
def wClash : NormalizedFlight :=
  ⟨"other-1", "kiwi", "Other", "FR-FR", "WAW-BCN",
    "WAW", "BCN", "2025-03-01T06:25:00", "2025-03-01T09:00:00", 155, 0, 390,
    "PLN", none, "economy", false⟩

/-- A concrete cheap flight offer used in witnesses. -/
def wCheap : NormalizedFlight :=
  ⟨"kiwi-1", "kiwi", "Wizz Air", "W6", "W6-1001",
    "WAW", "BCN", "2025-03-01T10:00:00", "2025-03-01T12:45:00", 165, 0, 390,
    "PLN", none, "economy", true⟩

/-- A provider run that succeeded with one offer. -/
def pOk : ProviderRun := ⟨"ryanair", true, .ok [wRyanair], none⟩

/-- A provider run that succeeded with one cheap offer. -/
def pOk2 : ProviderRun := ⟨"kiwi", true, .ok [wCheap], none⟩

/-- A provider run whose `searchFlights` promise rejected. -/
def pFail : ProviderRun := ⟨"amadeus", true, .error "fetch failed", none⟩

/-- Field lookup in a JSON object value: JavaScript property access, which is
insensitive to insertion order. -/
def jsonObjLookup : JsonObj → String → Option Json
  | .nil, _ => none
  | .cons k v t, k2 => if k = k2 then some v else jsonObjLookup t k2

/-- The fields of a concrete search request value, in declaration order. -/
def wParamsFields : JsonObj :=
  .cons "origin" (.str "WAW") (.cons "destination" (.str "BCN")
    (.cons "date_from" (.str "2025-03-01") .nil))

/-- A concrete search request value. -/
def wParams : Json := .obj wParamsFields

/-- The fields of the same search request with the first two fields inserted
in the opposite order: the same property-to-value map, a different insertion
order. -/
def wParamsSwappedFields : JsonObj :=
  .cons "destination" (.str "BCN") (.cons "origin" (.str "WAW")
    (.cons "date_from" (.str "2025-03-01") .nil))

/-- The reordered request value. -/
def wParamsSwapped : Json := .obj wParamsSwappedFields

/-- A concrete destination offer used in witnesses. -/
def wDest (city : String) (p : Rat) : ExploreResult :=
  ⟨city, city, p, "PLN", "2025-03-01", "2025-03-05", "ryanair", none⟩

/-- `v` occurs in `l` and is the first minimum-price member of its key group:
every earlier group member is strictly more expensive, every later one at
least as expensive. -/
def KeyMin {α : Type} (key : α → String) (price : α → Rat) (l : List α) (v : α) : Prop :=
  ∃ l1 l2, l = l1 ++ v :: l2 ∧
    (∀ g ∈ l1, key g = key v → price v < price g) ∧
    (∀ g ∈ l2, key g = key v → price v ≤ price g)

/-- Loop invariant of the keep-cheapest grouping fold: after processing the
prefix `pre`, the map keys are distinct, every processed element's key is
present, and every stored value is keyed by its own key and is the first
minimum-price member of its group within `pre`. -/
def DedupInv {α : Type} (key : α → String) (price : α → Rat)
    (pre : List α) (m : List (String × α)) : Prop :=
  (m.map Prod.fst).Nodup ∧
  (∀ g ∈ pre, alGet m (key g) ≠ none) ∧
  (∀ k v, alGet m k = some v → key v = k ∧ KeyMin key price pre v)

theorem alGet_alSet_self {α : Type} (m : List (String × α)) (k : String) (v : α) :
    alGet (alSet m k v) k = some v := by
  induction m with
  | nil => simp [alSet, alGet]
  | cons e t ih =>
      by_cases h : e.1 = k
      · simp [alSet, h, alGet]
      · simp [alSet, h, alGet, ih]

theorem alGet_alSet_ne {α : Type} (m : List (String × α)) (k k2 : String) (v : α)
    (h : k2 ≠ k) : alGet (alSet m k v) k2 = alGet m k2 := by
  induction m with
  | nil =>
      have hne : ¬ (k = k2) := fun hk => h hk.symm
      simp [alSet, alGet, hne]
  | cons e t ih =>
      by_cases he : e.1 = k
      · have hne : ¬ (k = k2) := fun hk => h hk.symm
        simp [alSet, he, alGet, hne]
      · by_cases he2 : e.1 = k2
        · simp [alSet, he, alGet, he2, h]
        · simp [alSet, he, alGet, he2, ih]

theorem alGet_eq_none_iff {α : Type} (m : List (String × α)) (k : String) :
    alGet m k = none ↔ k ∉ m.map Prod.fst := by
  induction m with
  | nil => simp [alGet]
  | cons e t ih =>
      by_cases h : e.1 = k
      · simp [alGet, h]
      · have hne : ¬ (k = e.1) := fun hk => h hk.symm
        simp [alGet, h, ih, List.mem_cons, hne]

theorem keys_alSet_none {α : Type} (m : List (String × α)) (k : String) (v : α)
    (h : alGet m k = none) :
    (alSet m k v).map Prod.fst = m.map Prod.fst ++ [k] := by
  induction m with
  | nil => simp [alSet]
  | cons e t ih =>
      by_cases he : e.1 = k
      · simp [alGet, he] at h
      · simp [alGet, he] at h
        simp [alSet, he, ih h]

theorem keys_alSet_some {α : Type} (m : List (String × α)) (k : String) (v w : α)
    (h : alGet m k = some w) :
    (alSet m k v).map Prod.fst = m.map Prod.fst := by
  induction m with
  | nil => simp [alGet] at h
  | cons e t ih =>
      by_cases he : e.1 = k
      · simp [alSet, he]
      · simp [alGet, he] at h
        simp [alSet, he, ih h]

theorem alGet_mem {α : Type} (m : List (String × α)) (k : String) (v : α)
    (h : alGet m k = some v) : (k, v) ∈ m := by
  induction m with
  | nil => simp [alGet] at h
  | cons e t ih =>
      by_cases he : e.1 = k
      · simp only [alGet, if_pos he, Option.some.injEq] at h
        have hkv : (k, v) = e := by
          cases e
          simp only [Prod.mk.injEq]
          simp at he h
          exact ⟨he.symm, h.symm⟩
        exact List.mem_cons.2 (Or.inl hkv)
      · simp [alGet, he] at h
        exact List.mem_cons_of_mem _ (ih h)

theorem alGet_of_mem_nodup {α : Type} (m : List (String × α)) (k : String) (v : α)
    (hnd : (m.map Prod.fst).Nodup) (hm : (k, v) ∈ m) : alGet m k = some v := by
  induction m with
  | nil => simp at hm
  | cons e t ih =>
      rcases List.mem_cons.1 hm with he | ht
      · simp [alGet, ← he]
      · have hk : k ∈ t.map Prod.fst := by
          exact List.mem_map.2 ⟨(k, v), ht, rfl⟩
        have hne : e.1 ≠ k := by
          intro h
          exact (List.nodup_cons.1 (by simpa using hnd)).1 (h ▸ hk)
        simp [alGet, hne]
        exact ih (List.nodup_cons.1 (by simpa using hnd)).2 ht

theorem dedupInv_step {α : Type} (key : α → String) (price : α → Rat)
    (pre : List α) (m : List (String × α)) (x : α)
    (h : DedupInv key price pre m) :
    DedupInv key price (pre ++ [x]) (mapStep key price m x) := by
  obtain ⟨hnd, hcomp, hgood⟩ := h
  rcases hx : alGet m (key x) with _ | e
  · have hstep : mapStep key price m x = alSet m (key x) x := by simp [mapStep, hx]
    rw [hstep]
    refine ⟨?_, ?_, ?_⟩
    · rw [keys_alSet_none m (key x) x hx]
      have hnotin : key x ∉ List.map Prod.fst m := (alGet_eq_none_iff m (key x)).1 hx
      exact hnd.append (List.nodup_singleton _)
        (fun b hb hbk => by simp at hbk; exact hnotin (hbk ▸ hb))
    · intro g hg
      rcases List.mem_append.1 hg with hg | hg
      · have hne : key g ≠ key x := by
          intro he
          have := hcomp g hg
          rw [he] at this
          exact this hx
        rw [alGet_alSet_ne m (key x) (key g) x hne]
        exact hcomp g hg
      · have hgx : g = x := by simpa using hg
        subst hgx
        rw [alGet_alSet_self]
        simp
    · intro k v hv
      by_cases hk : k = key x
      · subst hk
        rw [alGet_alSet_self] at hv
        have hxv : x = v := by simpa using hv
        subst hxv
        refine ⟨rfl, pre, [], by simp, ?_, by simp⟩
        intro g hg he
        have := hcomp g hg
        rw [he] at this
        exact absurd hx this
      · rw [alGet_alSet_ne m (key x) k x hk] at hv
        obtain ⟨hkey, l1, l2, hsplit, h1, h2⟩ := hgood k v hv
        refine ⟨hkey, l1, l2 ++ [x], by rw [hsplit]; simp, h1, ?_⟩
        intro g hg he
        rcases List.mem_append.1 hg with hg | hg
        · exact h2 g hg he
        · have hgx : g = x := by simpa using hg
          subst hgx
          exact absurd (he.trans hkey).symm hk
  · by_cases hpe : price x < price e
    · have hstep : mapStep key price m x = alSet m (key x) x := by simp [mapStep, hx, hpe]
      rw [hstep]
      refine ⟨?_, ?_, ?_⟩
      · rw [keys_alSet_some m (key x) x e hx]
        exact hnd
      · intro g hg
        rcases List.mem_append.1 hg with hg | hg
        · by_cases he : key g = key x
          · rw [he, alGet_alSet_self]
            simp
          · rw [alGet_alSet_ne m (key x) (key g) x he]
            exact hcomp g hg
        · have hgx : g = x := by simpa using hg
          subst hgx
          rw [alGet_alSet_self]
          simp
      · intro k v hv
        by_cases hk : k = key x
        · subst hk
          rw [alGet_alSet_self] at hv
          have hxv : x = v := by simpa using hv
          subst hxv
          obtain ⟨hkeyE, hkm⟩ := hgood (key x) e hx
          obtain ⟨p1, p2, hsplE, he1, he2⟩ := hkm
          refine ⟨rfl, pre, [], by simp, ?_, by simp⟩
          intro g hg he
          rw [hsplE] at hg
          rcases List.mem_append.1 hg with hg1 | hg2
          · exact hpe.trans (he1 g hg1 (he.trans hkeyE.symm))
          · rcases List.mem_cons.1 hg2 with rfl | hg2
            · exact hpe
            · exact hpe.trans_le (he2 g hg2 (he.trans hkeyE.symm))
        · rw [alGet_alSet_ne m (key x) k x hk] at hv
          obtain ⟨hkey, l1, l2, hsplit, h1, h2⟩ := hgood k v hv
          refine ⟨hkey, l1, l2 ++ [x], by rw [hsplit]; simp, h1, ?_⟩
          intro g hg he
          rcases List.mem_append.1 hg with hg | hg
          · exact h2 g hg he
          · have hgx : g = x := by simpa using hg
            subst hgx
            exact absurd (he.trans hkey).symm hk
    · have hstep : mapStep key price m x = m := by simp [mapStep, hx, hpe]
      rw [hstep]
      refine ⟨hnd, ?_, ?_⟩
      · intro g hg
        rcases List.mem_append.1 hg with hg | hg
        · exact hcomp g hg
        · have hgx : g = x := by simpa using hg
          subst hgx
          rw [hx]
          simp
      · intro k v hv
        obtain ⟨hkey, l1, l2, hsplit, h1, h2⟩ := hgood k v hv
        refine ⟨hkey, l1, l2 ++ [x], by rw [hsplit]; simp, h1, ?_⟩
        intro g hg he
        rcases List.mem_append.1 hg with hg | hg
        · exact h2 g hg he
        · have hgx : g = x := by simpa using hg
          rw [hgx] at he ⊢
          have hke : k = key x := (he.trans hkey).symm
          have hv2 : alGet m (key x) = some v := by
            rw [← hke]
            exact hv
          have hveq : e = v := by
            rw [hx] at hv2
            simpa using hv2
          rw [← hveq]
          exact le_of_not_lt hpe

theorem dedupInv_fold {α : Type} (key : α → String) (price : α → Rat)
    (l pre : List α) (m : List (String × α))
    (h : DedupInv key price pre m) :
    DedupInv key price (pre ++ l) (l.foldl (mapStep key price) m) := by
  induction l generalizing pre m with
  | nil => simpa using h
  | cons x t ih =>
      have h1 := dedupInv_step key price pre m x h
      have h2 := ih (pre ++ [x]) (mapStep key price m x) h1
      simpa using h2

theorem dedupInv_run {α : Type} (key : α → String) (price : α → Rat) (l : List α) :
    DedupInv key price l (l.foldl (mapStep key price) []) := by
  have h0 : DedupInv key price [] ([] : List (String × α)) := by
    refine ⟨by simp, by simp, ?_⟩
    intro k v hv
    simp [alGet] at hv
  simpa using dedupInv_fold key price l [] [] h0

theorem dedupBy_pairwise_keys {α : Type} (key : α → String) (price : α → Rat)
    (l : List α) :
    (dedupBy key price l).Pairwise (fun a b => key a ≠ key b) := by
  obtain ⟨hnd, -, hgood⟩ := dedupInv_run key price l
  unfold dedupBy
  rw [List.pairwise_map]
  have hp : (l.foldl (mapStep key price) []).Pairwise (fun a b => a.1 ≠ b.1) :=
    (List.pairwise_map).1 hnd
  refine hp.imp_of_mem ?_
  intro a b ha hb hne
  have hga : alGet (l.foldl (mapStep key price) []) a.1 = some a.2 :=
    alGet_of_mem_nodup _ _ _ hnd (by cases a; exact ha)
  have hgb : alGet (l.foldl (mapStep key price) []) b.1 = some b.2 :=
    alGet_of_mem_nodup _ _ _ hnd (by cases b; exact hb)
  have hka := (hgood a.1 a.2 hga).1
  have hkb := (hgood b.1 b.2 hgb).1
  rw [hka, hkb]
  exact hne

theorem dedupBy_keyMin {α : Type} (key : α → String) (price : α → Rat)
    (l : List α) :
    ∀ v ∈ dedupBy key price l, KeyMin key price l v := by
  intro v hv
  obtain ⟨hnd, -, hgood⟩ := dedupInv_run key price l
  unfold dedupBy at hv
  rw [List.mem_map] at hv
  obtain ⟨e, he, rfl⟩ := hv
  exact (hgood e.1 e.2 (alGet_of_mem_nodup _ _ _ hnd (by cases e; exact he))).2

theorem mem_sInsert {α : Type} (le : α → α → Bool) (a x : α) (l : List α) :
    x ∈ sInsert le a l ↔ x = a ∨ x ∈ l := by
  induction l with
  | nil => simp [sInsert]
  | cons b t ih =>
      by_cases h : le a b
      · simp [sInsert, h, List.mem_cons]
      · simp [sInsert, h, List.mem_cons, ih]
        tauto

theorem sInsert_perm {α : Type} (le : α → α → Bool) (a : α) (l : List α) :
    (sInsert le a l).Perm (a :: l) := by
  induction l with
  | nil => simp [sInsert]
  | cons b t ih =>
      by_cases h : le a b
      · simp [sInsert, h]
      · simp only [sInsert, h, if_neg]
        exact ((ih.cons b)).trans (List.Perm.swap a b t)

theorem insSort_perm {α : Type} (le : α → α → Bool) (l : List α) :
    (insSort le l).Perm l := by
  induction l with
  | nil => simp [insSort]
  | cons a t ih =>
      exact (sInsert_perm le a (insSort le t)).trans (ih.cons a)

theorem sInsert_pairwise {α : Type} (le : α → α → Bool)
    (htrans : ∀ a b c, le a b = true → le b c = true → le a c = true)
    (htot : ∀ a b, le a b = false → le b a = true)
    (a : α) (l : List α) (h : l.Pairwise (fun x y => le x y = true)) :
    (sInsert le a l).Pairwise (fun x y => le x y = true) := by
  induction l with
  | nil => simp [sInsert]
  | cons b t ih =>
      rw [List.pairwise_cons] at h
      obtain ⟨hb, ht⟩ := h
      by_cases hab : le a b = true
      · rw [sInsert, if_pos hab, List.pairwise_cons]
        refine ⟨?_, List.Pairwise.cons hb ht⟩
        intro y hy
        rcases List.mem_cons.1 hy with rfl | hy
        · exact hab
        · exact htrans a b y hab (hb y hy)
      · rw [sInsert, if_neg hab, List.pairwise_cons]
        refine ⟨?_, ih ht⟩
        intro y hy
        rcases (mem_sInsert le a y t).1 hy with hya | hy
        · rw [hya]
          exact htot a b (by simpa using hab)
        · exact hb y hy

theorem insSort_pairwise {α : Type} (le : α → α → Bool)
    (htrans : ∀ a b c, le a b = true → le b c = true → le a c = true)
    (htot : ∀ a b, le a b = false → le b a = true)
    (l : List α) :
    (insSort le l).Pairwise (fun x y => le x y = true) := by
  induction l with
  | nil => simp [insSort]
  | cons a t ih => exact sInsert_pairwise le htrans htot a (insSort le t) ih

theorem filter_sInsert {α : Type} (le : α → α → Bool) (p : α → Bool)
    (hp : ∀ x y, p x = true → p y = true → le x y = true)
    (a : α) (l : List α) :
    (sInsert le a l).filter p = if p a then a :: l.filter p else l.filter p := by
  induction l with
  | nil =>
      cases hpa : p a <;> simp [sInsert, List.filter_cons, hpa]
  | cons b t ih =>
      by_cases hab : le a b = true
      · rw [sInsert, if_pos hab]
        cases hpa : p a <;> simp [List.filter_cons, hpa]
      · rw [sInsert, if_neg hab, List.filter_cons, ih, List.filter_cons]
        by_cases hpa : p a = true
        · have hpb : p b = false := by
            rcases Bool.eq_false_or_eq_true (p b) with h1 | h1
            · exact absurd (hp a b hpa h1) hab
            · exact h1
          simp [hpa, hpb]
        · have hpa2 : p a = false := by simpa using hpa
          simp [hpa2]

theorem filter_insSort {α : Type} (le : α → α → Bool) (p : α → Bool)
    (hp : ∀ x y, p x = true → p y = true → le x y = true) (l : List α) :
    (insSort le l).filter p = l.filter p := by
  induction l with
  | nil => simp [insSort]
  | cons a t ih =>
      rw [insSort, filter_sInsert le p hp, ih, List.filter_cons]

theorem flightLe_iff (a b : NormalizedFlight) :
    flightLe a b = true ↔
      (a.price < b.price ∨
        (a.price = b.price ∧ a.duration_minutes ≤ b.duration_minutes)) := by
  unfold flightLe
  by_cases h1 : a.price < b.price
  · simp [h1]
  · by_cases h2 : a.price = b.price
    · simp [h1, h2, lt_irrefl]
    · simp [h1, h2]

theorem flightLe_trans (a b c : NormalizedFlight)
    (hab : flightLe a b = true) (hbc : flightLe b c = true) :
    flightLe a c = true := by
  rw [flightLe_iff] at hab hbc ⊢
  rcases hab with h1 | ⟨h1, h2⟩
  · rcases hbc with h3 | ⟨h3, h4⟩
    · exact Or.inl (h1.trans h3)
    · exact Or.inl (h3 ▸ h1)
  · rcases hbc with h3 | ⟨h3, h4⟩
    · exact Or.inl (h1 ▸ h3)
    · exact Or.inr ⟨h1.trans h3, h2.trans h4⟩

theorem flightLe_total (a b : NormalizedFlight) (h : flightLe a b = false) :
    flightLe b a = true := by
  have h2 : ¬ flightLe a b = true := by simp [h]
  rw [flightLe_iff] at h2
  rw [flightLe_iff]
  push_neg at h2
  obtain ⟨hle, himp⟩ := h2
  rcases eq_or_lt_of_le hle with heq | hlt2
  · exact Or.inr ⟨heq, le_of_lt (himp heq.symm)⟩
  · exact Or.inl hlt2

theorem exploreLe_trans (a b c : ExploreResult)
    (hab : exploreLe a b = true) (hbc : exploreLe b c = true) :
    exploreLe a c = true := by
  simp [exploreLe] at hab hbc ⊢
  exact hab.trans hbc

theorem exploreLe_total (a b : ExploreResult) (h : exploreLe a b = false) :
    exploreLe b a = true := by
  simp [exploreLe] at h ⊢
  exact le_of_lt h

theorem dedupKey_eq_of_tupleKey_eq (a b : NormalizedFlight)
    (h : tupleKey a = tupleKey b) : dedupKey a = dedupKey b := by
  unfold tupleKey at h
  simp only [Prod.mk.injEq] at h
  obtain ⟨h1, h2, h3, h4, h5⟩ := h
  unfold dedupKey
  rw [h1, h2, h3, h4, h5]

theorem collectSettled_fst (active : List ProviderRun) :
    (collectSettled active).1 = successOffers active := by
  suffices hgen : ∀ (acc : List NormalizedFlight × List String),
      (active.foldl collectStep acc).1 = acc.1 ++ successOffers active by
    simpa using hgen ([], [])
  induction active with
  | nil => intro acc; simp [successOffers]
  | cons p t ih =>
      intro acc
      rw [List.foldl_cons, ih]
      cases hr : p.result with
      | ok v => simp [collectStep, hr, successOffers]
      | error e => simp [collectStep, hr, successOffers]

theorem successOffers_eq_nil (l : List ProviderRun)
    (h : ∀ p ∈ l, p.result.isOk = false) : successOffers l = [] := by
  induction l with
  | nil => rfl
  | cons p t ih =>
      cases hr : p.result with
      | ok v =>
          have := h p (List.mem_cons_self p t)
          rw [hr] at this
          simp [Except.isOk, Except.toBool] at this
      | error e =>
          rw [successOffers, hr]
          simpa using ih fun q hq => h q (List.mem_cons_of_mem p hq)

/-- C1: for every input list of flight offers (the flattened successful
source results), the search pipeline output (`deduplicate` followed by the
stable sort, src/unnamed/part_000 lines 48-52) contains at most one offer per
composite (airline code, flight number, departure day, origin, destination)
key: output offers have pairwise distinct 5-tuples.  Moreover every output
offer splits the input as `l1 ++ f :: l2` where every 5-tuple group member in
`l1` (encountered earlier in flatten order) is strictly more expensive and
every group member in `l2` is at least as expensive — i.e. the kept offer is
a minimum-price member of its group and, among minimum-price ties, the first
encountered in flatten order. -/
theorem search_dedupe_unique_min (flights : List NormalizedFlight) :
    (searchMerge flights).Pairwise (fun a b => tupleKey a ≠ tupleKey b) ∧
    ∀ f ∈ searchMerge flights, ∃ l1 l2, flights = l1 ++ f :: l2 ∧
      (∀ g ∈ l1, tupleKey g = tupleKey f → f.price < g.price) ∧
      (∀ g ∈ l2, tupleKey g = tupleKey f → f.price ≤ g.price) := by
  have hperm : (searchMerge flights).Perm (deduplicate flights) :=
    insSort_perm flightLe (deduplicate flights)
  constructor
  · have hpair : (deduplicate flights).Pairwise (fun a b => dedupKey a ≠ dedupKey b) :=
      dedupBy_pairwise_keys dedupKey NormalizedFlight.price flights
    have hpair2 : (deduplicate flights).Pairwise (fun a b => tupleKey a ≠ tupleKey b) :=
      hpair.imp fun {a b} hne he => hne (dedupKey_eq_of_tupleKey_eq a b he)
    have hsymm : Symmetric (fun a b : NormalizedFlight => tupleKey a ≠ tupleKey b) :=
      fun a b h he => h he.symm
    exact (hperm.pairwise_iff @hsymm).2 hpair2
  · intro f hf
    have hf2 : f ∈ deduplicate flights := hperm.mem_iff.1 hf
    have hkm := dedupBy_keyMin dedupKey NormalizedFlight.price flights f hf2
    unfold KeyMin at hkm
    obtain ⟨l1, l2, hsplit, h1, h2⟩ := hkm
    exact ⟨l1, l2, hsplit,
      fun g hg he => h1 g hg (dedupKey_eq_of_tupleKey_eq g f he),
      fun g hg he => h2 g hg (dedupKey_eq_of_tupleKey_eq g f he)⟩

/-- C2: the search pipeline output is sorted non-decreasing by price, with
ties on price non-decreasing by duration; offers tied on both price and
duration appear in the order they had after dedupe (stable sort: filtering
the output to any (price, duration) class gives exactly the corresponding
filter of the deduped list); and the output is a permutation of the deduped
list. -/
theorem search_sorted_stable (flights : List NormalizedFlight) :
    (searchMerge flights).Pairwise
      (fun a b => a.price ≤ b.price ∧
        (a.price = b.price → a.duration_minutes ≤ b.duration_minutes)) ∧
    (∀ p q : Rat,
      (searchMerge flights).filter
          (fun f => f.price == p && f.duration_minutes == q) =
        (deduplicate flights).filter
          (fun f => f.price == p && f.duration_minutes == q)) ∧
    (searchMerge flights).Perm (deduplicate flights) := by
  refine ⟨?_, ?_, insSort_perm flightLe (deduplicate flights)⟩
  · have h := insSort_pairwise flightLe flightLe_trans flightLe_total (deduplicate flights)
    refine h.imp fun {a b} hle => ?_
    rw [flightLe_iff] at hle
    rcases hle with h1 | ⟨h1, h2⟩
    · refine ⟨le_of_lt h1, fun he => absurd h1 ?_⟩
      rw [he]
      exact lt_irrefl _
    · exact ⟨le_of_eq h1, fun _ => h2⟩
  · intro p q
    apply filter_insSort
    intro x y hx hy
    simp only [Bool.and_eq_true, beq_iff_eq] at hx hy
    rw [flightLe_iff]
    right
    rw [hx.1, hy.1, hx.2, hy.2]
    exact ⟨rfl, le_refl _⟩

/-- C3: `searchFlights` never raises for a per-source failure — the collection
loop is a total function of the settled outcomes; its result is the stable
sort of the dedupe of the flattened offers of exactly the fulfilled active
providers (failed providers contribute nothing but a diagnostic); and with no
active providers, or with every active provider failed, the result is the
empty list. -/
theorem search_partial_failure (ps : List ProviderRun) (filter : Option (List String)) :
    searchNoCache ps filter =
      insSort flightLe (deduplicate (successOffers (activeProviders ps filter))) ∧
    (activeProviders ps filter = [] → searchNoCache ps filter = []) ∧
    ((∀ p ∈ activeProviders ps filter, p.result.isOk = false) →
      searchNoCache ps filter = []) := by
  have hc : (collectSettled (activeProviders ps filter)).1 =
      successOffers (activeProviders ps filter) := collectSettled_fst _
  refine ⟨by rw [searchNoCache, hc], ?_, ?_⟩
  · intro h
    rw [searchNoCache, h]
    rfl
  · intro h
    rw [searchNoCache, hc, successOffers_eq_nil _ h]
    rfl

/-- C4: with the key absent from the store, a first `searchFlights` call at
`t0` computes from the providers, stores the result with expiry
`t0 + 300000` ms and reports the providers as invoked; a second call with the
unchanged request and filter at any `t1 ≤ t0 + TTL` returns exactly the first
result with the store untouched and WITHOUT invoking any provider (the result
is independent of the second call's provider outcomes `ps2`); at any
`t1 > t0 + TTL` the stale entry is evicted on read and the result is
recomputed from the providers.  Additionally `TTLCache.get` returns a stored
value exactly when the entry is present and `now ≤ expires_at`, and otherwise
reports absent. -/
theorem cache_ttl_roundtrip (ps ps2 : List ProviderRun) (filter : Option (List String))
    (params : Json) (st0 : List (String × CacheEntry)) (t0 t1 : Int)
    (hmiss : alGet st0 (searchKey params filter) = none) :
    searchWithCache ps filter params st0 t0 =
      (searchNoCache ps filter,
       cacheSet st0 t0 (searchKey params filter) (searchNoCache ps filter) aggTTLms,
       true) ∧
    (t1 ≤ t0 + aggTTLms →
      searchWithCache ps2 filter params
          (cacheSet st0 t0 (searchKey params filter) (searchNoCache ps filter) aggTTLms) t1 =
        (searchNoCache ps filter,
         cacheSet st0 t0 (searchKey params filter) (searchNoCache ps filter) aggTTLms,
         false)) ∧
    (t0 + aggTTLms < t1 →
      searchWithCache ps2 filter params
          (cacheSet st0 t0 (searchKey params filter) (searchNoCache ps filter) aggTTLms) t1 =
        (searchNoCache ps2 filter,
         cacheSet
           (alErase
             (cacheSet st0 t0 (searchKey params filter) (searchNoCache ps filter) aggTTLms)
             (searchKey params filter))
           t1 (searchKey params filter) (searchNoCache ps2 filter) aggTTLms,
         true)) ∧
    (∀ (st : List (String × CacheEntry)) (now : Int) (key : String)
        (v : List NormalizedFlight),
      (cacheGet st now key).1 = some v ↔
        ∃ e, alGet st key = some e ∧ now ≤ e.expires_at ∧ e.value = v) := by
  refine ⟨?_, ?_, ?_, ?_⟩
  · simp [searchWithCache, cacheGet, hmiss]
  · intro ht
    have hnot : ¬ (t1 > t0 + aggTTLms) := not_lt.2 ht
    simp only [searchWithCache, cacheGet, cacheSet, alGet_alSet_self]
    simp [hnot]
  · intro ht
    simp only [searchWithCache, cacheGet, cacheSet, alGet_alSet_self]
    simp [ht]
  · intro st now key v
    rcases hst : alGet st key with _ | e
    · simp [cacheGet, hst]
    · by_cases hnow : now > e.expires_at
      · have hnle : ¬ (now ≤ e.expires_at) := not_le.2 hnow
        simp [cacheGet, hst, hnow, hnle]
      · have hle : now ≤ e.expires_at := le_of_not_lt hnow
        simp [cacheGet, hst, hnow, hle]

/-- C4 witness: with one fulfilled provider, an empty store, a first call at
`t0 = 0` and a second call at `t1 = 1000` (within the 300000 ms TTL), the
second call returns the first result, leaves the store unchanged, and does not
invoke the providers (here the second call is even given an empty provider
list). -/
theorem cache_ttl_roundtrip_witness :
    searchWithCache [] none wParams
        (cacheSet [] 0 (searchKey wParams none) (searchNoCache [pOk] none) aggTTLms) 1000 =
      (searchNoCache [pOk] none,
       cacheSet [] 0 (searchKey wParams none) (searchNoCache [pOk] none) aggTTLms,
       false) :=
  (cache_ttl_roundtrip [pOk] [] none wParams [] 0 1000 rfl).2.1 (by decide)

/-- C5: `TTLCache.buildKey` serializes with `JSON.stringify`, which emits
object fields in insertion order.  The two request values below carry the same
fields with the same values (property lookup agrees on every name), yet
`buildKey("search", request, undefined)` yields two different cache keys, so
semantically identical requests do NOT always map to the same cache entry:
the encoding is not canonical. -/
theorem buildKey_order_sensitive :
    (∀ k : String, jsonObjLookup wParamsFields k = jsonObjLookup wParamsSwappedFields k) ∧
    buildKey [Json.str "search", wParams, filterJson none] ≠
      buildKey [Json.str "search", wParamsSwapped, filterJson none] := by
  constructor
  · intro k
    by_cases h1 : "origin" = k
    · subst h1
      rfl
    · by_cases h2 : "destination" = k
      · subst h2
        rfl
      · by_cases h3 : "date_from" = k
        · subst h3
          rfl
        · simp [jsonObjLookup, wParamsFields, wParamsSwappedFields, h1, h2, h3]
  · decide

/-- C9: the dedupe key is the dash-joined string of the five fields without
escaping, and the joined fields may themselves contain dashes (Ryanair offers
carry the synthetic flight number `FR-<origin>-<destination>`).  The two
concrete offers below have different composite 5-tuples (different airline
code and flight number) yet identical joined key strings, and `deduplicate`
keeps only the cheaper one: the genuinely distinct flight `wRyanair` is
silently discarded. -/
theorem dedupe_key_collision :
    tupleKey wRyanair ≠ tupleKey wClash ∧
    dedupKey wRyanair = dedupKey wClash ∧
    deduplicate [wRyanair, wClash] = [wClash] ∧
    wRyanair ∉ deduplicate [wRyanair, wClash] := by decide

/-- C8: for every provider outcome set, filter and limit, the explore pipeline
(src/unnamed/part_000 lines 58-96) returns at most `limit` destination offers;
their destination identifiers are pairwise distinct; every returned offer is
one of the successful providers' candidates and is a minimum-price candidate
for its destination among all of them; prices are non-decreasing; and the
output is literally the `limit`-prefix of the globally deduped and sorted
candidate list — the truncation happens after dedupe and sort. -/
theorem explore_limit_dedupe_sorted (ps : List ProviderRun)
    (filter : Option (List String)) (limit : Nat) :
    (exploreNoCache ps filter limit).length ≤ limit ∧
    (exploreNoCache ps filter limit).Pairwise
      (fun a b => a.destination ≠ b.destination) ∧
    (∀ d ∈ exploreNoCache ps filter limit,
      d ∈ exploreSuccessOffers (exploreActive ps filter) ∧
      ∀ g ∈ exploreSuccessOffers (exploreActive ps filter),
        g.destination = d.destination → d.price ≤ g.price) ∧
    (exploreNoCache ps filter limit).Pairwise (fun a b => a.price ≤ b.price) ∧
    exploreNoCache ps filter limit =
      (insSort exploreLe
        (exploreDedup (exploreSuccessOffers (exploreActive ps filter)))).take limit := by
  refine ⟨?_, ?_, ?_, ?_, rfl⟩
  · exact List.length_take_le limit _
  · have h1 : (exploreDedup (exploreSuccessOffers (exploreActive ps filter))).Pairwise
        (fun a b => a.destination ≠ b.destination) :=
      dedupBy_pairwise_keys ExploreResult.destination ExploreResult.price _
    have hsymm : Symmetric (fun a b : ExploreResult => a.destination ≠ b.destination) :=
      fun a b h he => h he.symm
    have h2 := ((insSort_perm exploreLe _).pairwise_iff @hsymm).2 h1
    exact h2.sublist (List.take_sublist limit _)
  · intro d hd
    have hd2 : d ∈ insSort exploreLe
        (exploreDedup (exploreSuccessOffers (exploreActive ps filter))) :=
      (List.take_sublist limit _).subset hd
    have hd3 : d ∈ exploreDedup (exploreSuccessOffers (exploreActive ps filter)) :=
      (insSort_perm exploreLe _).mem_iff.1 hd2
    have hkm := dedupBy_keyMin ExploreResult.destination ExploreResult.price _ d hd3
    unfold KeyMin at hkm
    obtain ⟨l1, l2, hsplit, hm1, hm2⟩ := hkm
    constructor
    · rw [hsplit]
      exact List.mem_append.2 (Or.inr (List.mem_cons_self d l2))
    · intro g hg he
      rw [hsplit] at hg
      rcases List.mem_append.1 hg with hg | hg
      · exact le_of_lt (hm1 g hg he)
      · rcases List.mem_cons.1 hg with rfl | hg
        · exact le_refl _
        · exact hm2 g hg he
  · have hs := insSort_pairwise exploreLe exploreLe_trans exploreLe_total
      (exploreDedup (exploreSuccessOffers (exploreActive ps filter)))
    have h2 : (insSort exploreLe
        (exploreDedup (exploreSuccessOffers (exploreActive ps filter)))).Pairwise
        (fun a b : ExploreResult => a.price ≤ b.price) :=
      hs.imp fun {a b} h => by simpa [exploreLe] using h
    exact h2.sublist (List.take_sublist limit _)

theorem acquire_max_eq (s : RateLimiter) (a b : Rat) :
    (s.acquire a b).max_tokens = s.max_tokens := by
  simp only [RateLimiter.acquire]
  by_cases h : 1 ≤ (s.refill a).tokens
  · rw [if_pos h]
    rfl
  · rw [if_neg h]
    rfl

theorem acquire_tokens_le (s : RateLimiter) (a b : Rat) :
    (s.acquire a b).tokens ≤ s.max_tokens := by
  have hra : (s.refill a).tokens ≤ s.max_tokens := min_le_left _ _
  have hrb : ((s.refill a).refill b).tokens ≤ s.max_tokens := min_le_left _ _
  simp only [RateLimiter.acquire]
  by_cases h : 1 ≤ (s.refill a).tokens
  · rw [if_pos h]
    show (s.refill a).tokens - 1 ≤ s.max_tokens
    linarith
  · rw [if_neg h]
    show ((s.refill a).refill b).tokens - 1 ≤ s.max_tokens
    linarith

/-- C7: every refill clamps to `min max_tokens`, so the balance is at most the
capacity immediately after any refill regardless of idle time; consequently,
starting from a fresh bucket, the balance stays at most the capacity after
every sequence of `acquire` calls with arbitrary clock readings. -/
theorem bucket_tokens_le_capacity (s : RateLimiter) (now : Rat)
    (cap rate t0 : Rat) (steps : List (Rat × Rat)) :
    (s.refill now).tokens ≤ s.max_tokens ∧
    (runAcquires (mkRateLimiter cap rate t0) steps).tokens ≤ cap := by
  constructor
  · exact min_le_left _ _
  · have hrun : ∀ (l : List (Rat × Rat)) (st : RateLimiter),
        st.tokens ≤ st.max_tokens → (runAcquires st l).tokens ≤ st.max_tokens := by
      intro l
      induction l with
      | nil =>
          intro st h
          simpa [runAcquires] using h
      | cons x t ih =>
          intro st h
          have h1 : (runAcquires (st.acquire x.1 x.2) t).tokens
              ≤ (st.acquire x.1 x.2).max_tokens :=
            ih (st.acquire x.1 x.2)
              (by rw [acquire_max_eq]; exact acquire_tokens_le st x.1 x.2)
          rw [acquire_max_eq] at h1
          simpa [runAcquires] using h1
    exact hrun steps (mkRateLimiter cap rate t0) (le_refl cap)

theorem refill_same_time (c t0 cap rate : Rat) (hle : c ≤ cap) :
    (RateLimiter.refill ⟨c, t0, cap, rate⟩ t0).tokens = c := by
  simp only [RateLimiter.refill]
  simp [min_eq_right hle]

theorem acquire_same_time (c t0 cap rate : Rat) (hle : c ≤ cap) (h1 : 1 ≤ c) :
    RateLimiter.acquire ⟨c, t0, cap, rate⟩ t0 t0 = ⟨c - 1, t0, cap, rate⟩ := by
  have hr : (RateLimiter.refill ⟨c, t0, cap, rate⟩ t0) = ⟨c, t0, cap, rate⟩ := by
    simp only [RateLimiter.refill]
    simp [min_eq_right hle]
  simp only [RateLimiter.acquire, hr]
  rw [if_pos h1]

theorem runSame_from (cap rate t0 : Rat) (k : Nat) :
    ∀ c : Rat, c ≤ cap → (k : Rat) ≤ c →
      runAcquires ⟨c, t0, cap, rate⟩ (List.replicate k (t0, t0))
        = ⟨c - k, t0, cap, rate⟩ := by
  induction k with
  | zero =>
      intro c h1 h2
      simp [runAcquires]
  | succ n ih =>
      intro c h1 h2
      have hn : (0 : Rat) ≤ n := Nat.cast_nonneg n
      have hc1 : 1 ≤ c := by
        have hcast : ((n : Rat) + 1) ≤ c := by
          push_cast at h2
          linarith
        linarith
      rw [List.replicate_succ]
      simp only [runAcquires, List.foldl_cons]
      rw [acquire_same_time c t0 cap rate h1 hc1]
      have hrec := ih (c - 1) (by linarith) (by push_cast at h2 ⊢; linarith)
      simp only [runAcquires] at hrec
      rw [hrec]
      congr 1
      push_cast
      ring

/-- C10: a freshly constructed `RateLimiter(capacity, refill_rate)` starts
with a full bucket (`tokens = capacity`); with no time elapsed since
construction, the balance after `k ≤ ⌊capacity⌋` immediate acquires is
`capacity - k`; each of the first `⌊capacity⌋` acquires takes the fast path
(refreshed balance at least 1, no suspension); and the acquire after those
finds a refreshed balance below 1 and suspends. -/
theorem fresh_bucket_burst (cap rate t0 : Rat) (k : Nat) (hcap : 0 ≤ cap) :
    (mkRateLimiter cap rate t0).tokens = cap ∧
    (k ≤ Nat.floor cap →
      (runAcquires (mkRateLimiter cap rate t0) (List.replicate k (t0, t0))).tokens
        = cap - k) ∧
    (k < Nat.floor cap →
      1 ≤ ((runAcquires (mkRateLimiter cap rate t0)
              (List.replicate k (t0, t0))).refill t0).tokens) ∧
    ¬ 1 ≤ ((runAcquires (mkRateLimiter cap rate t0)
              (List.replicate (Nat.floor cap) (t0, t0))).refill t0).tokens := by
  have hfle : ((Nat.floor cap : Nat) : Rat) ≤ cap := Nat.floor_le hcap
  refine ⟨rfl, ?_, ?_, ?_⟩
  · intro hk
    have hkc : (k : Rat) ≤ cap := le_trans (by exact_mod_cast hk) hfle
    show (runAcquires ⟨cap, t0, cap, rate⟩ (List.replicate k (t0, t0))).tokens = cap - k
    rw [runSame_from cap rate t0 k cap (le_refl cap) hkc]
  · intro hk
    have hkc : (k : Rat) ≤ cap :=
      le_trans (by exact_mod_cast le_of_lt hk) hfle
    have hk0 : (0 : Rat) ≤ k := Nat.cast_nonneg k
    show 1 ≤ ((runAcquires ⟨cap, t0, cap, rate⟩
        (List.replicate k (t0, t0))).refill t0).tokens
    rw [runSame_from cap rate t0 k cap (le_refl cap) hkc,
      refill_same_time (cap - k) t0 cap rate (by linarith)]
    have hsucc : ((k : Rat) + 1) ≤ cap := by
      have h1 : ((k + 1 : Nat) : Rat) ≤ ((Nat.floor cap : Nat) : Rat) := by
        exact_mod_cast hk
      push_cast at h1
      linarith
    linarith
  · have hn0 : (0 : Rat) ≤ (Nat.floor cap : Nat) := Nat.cast_nonneg _
    show ¬ 1 ≤ ((runAcquires ⟨cap, t0, cap, rate⟩
        (List.replicate (Nat.floor cap) (t0, t0))).refill t0).tokens
    rw [runSame_from cap rate t0 (Nat.floor cap) cap (le_refl cap) hfle,
      refill_same_time (cap - (Nat.floor cap : Nat)) t0 cap rate (by linarith)]
    have hlt : cap < (Nat.floor cap : Nat) + 1 := Nat.lt_floor_add_one cap
    intro hcontra
    linarith

/-- C10 witness: a fresh bucket with capacity 5/2 and rate 1 holds 5/2 tokens;
the first acquire is immediate and leaves 3/2; after `⌊5/2⌋ = 2` immediate
acquires the next acquire finds balance 1/2 < 1 and suspends. -/
theorem fresh_bucket_burst_witness :
    (mkRateLimiter (5/2) 1 0).tokens = 5/2 ∧
    (runAcquires (mkRateLimiter (5/2) 1 0)
        (List.replicate 1 ((0 : Rat), (0 : Rat)))).tokens = 5/2 - ((1 : Nat) : Rat) ∧
    1 ≤ ((runAcquires (mkRateLimiter (5/2) 1 0)
        (List.replicate 1 ((0 : Rat), (0 : Rat)))).refill 0).tokens ∧
    ¬ 1 ≤ ((runAcquires (mkRateLimiter (5/2) 1 0)
        (List.replicate (Nat.floor ((5 : Rat)/2)) ((0 : Rat), (0 : Rat)))).refill 0).tokens := by
  have hfl : Nat.floor ((5 : Rat)/2) = 2 := by
    rw [Nat.floor_eq_iff (by norm_num)]
    constructor <;> norm_num
  have h := fresh_bucket_burst (5/2) 1 0 1 (by norm_num)
  exact ⟨h.1, h.2.1 (by rw [hfl]; norm_num), h.2.2.1 (by rw [hfl]; norm_num), h.2.2.2⟩

/-- C6 counterexample: `acquire` does NOT re-clamp after the post-wait
consumption (`this.tokens -= 1` is the final statement of the slow path), and
the balance it leaves as bucket state can be negative.  Concretely: a fresh
bucket with capacity 3 and rate 3 tokens/s serves three immediate acquires at
`t = 0` (balance 0), and a fourth acquire at `t = 0` computes a shortfall wait
of `1000/3 ≈ 333.33` ms; with the second millisecond-granular `Date.now()`
reading 333 ms later (`333 = ⌊1000/3⌋`, a reading the integer-valued clock can
produce even though the timer waited the full fractional delay), the post-wait
refill banks `333/1000 * 3 = 999/1000` tokens and the decrement leaves
`-1/1000 < 0` as state. -/
theorem acquire_goes_negative_cex :
    (((((mkRateLimiter 3 3 0).acquire 0 0).acquire 0 0).acquire 0 0).acquire 0 333).tokens
      < 0 := by
  have s1 : (mkRateLimiter 3 3 0).acquire 0 0 = ⟨2, 0, 3, 3⟩ := by
    have hstep := acquire_same_time 3 0 3 3 (le_refl 3) (by norm_num)
    show RateLimiter.acquire ⟨3, 0, 3, 3⟩ 0 0 = ⟨2, 0, 3, 3⟩
    rw [hstep]
    norm_num [RateLimiter.mk.injEq]
  have s2 : (RateLimiter.acquire ⟨2, 0, 3, 3⟩ 0 0) = ⟨1, 0, 3, 3⟩ := by
    have hstep := acquire_same_time 2 0 3 3 (by norm_num) (by norm_num)
    rw [hstep]
    norm_num [RateLimiter.mk.injEq]
  have s3 : (RateLimiter.acquire ⟨1, 0, 3, 3⟩ 0 0) = ⟨0, 0, 3, 3⟩ := by
    have hstep := acquire_same_time 1 0 3 3 (by norm_num) (by norm_num)
    rw [hstep]
    norm_num [RateLimiter.mk.injEq]
  rw [s1, s2, s3]
  have hr1 : RateLimiter.refill ⟨0, 0, 3, 3⟩ 0 = ⟨0, 0, 3, 3⟩ := by
    simp only [RateLimiter.refill]
    norm_num
  have hr2 : RateLimiter.refill ⟨0, 0, 3, 3⟩ 333 = ⟨999/1000, 333, 3, 3⟩ := by
    simp only [RateLimiter.refill]
    norm_num [min_def]
  simp only [RateLimiter.acquire, hr1]
  rw [if_neg (by norm_num)]
  rw [hr2]
  norm_num

/-- C6 amended: the balance after `acquire` is non-negative on the fast path
always, and on the slow path whenever the capacity is at least 1 token and the
elapsed clock time across the suspension is at least the computed shortfall
wait `(1 - tokens)/refill_rate` seconds; the source performs no re-clamp, so
outside these conditions (a millisecond-truncated measured wait shorter than
the fractional computed wait) the balance can end slightly negative. -/
theorem acquire_nonneg_of_full_wait (s : RateLimiter) (now after_wait : Rat)
    (hrate : 0 < s.refill_rate) (hcap : 1 ≤ s.max_tokens)
    (hwait : (s.refill now).waitMs ≤ after_wait - now) :
    0 ≤ (s.acquire now after_wait).tokens := by
  have hr0 : s.refill_rate ≠ 0 := ne_of_gt hrate
  simp only [RateLimiter.acquire]
  by_cases h1 : 1 ≤ (s.refill now).tokens
  · rw [if_pos h1]
    show 0 ≤ (s.refill now).tokens - 1
    linarith
  · rw [if_neg h1]
    show 0 ≤ ((s.refill now).refill after_wait).tokens - 1
    have hw : (1 - (s.refill now).tokens) / s.refill_rate * 1000 ≤ after_wait - now :=
      hwait
    have hkey : 1 - (s.refill now).tokens
        ≤ (after_wait - now) / 1000 * s.refill_rate := by
      have e1 : 1 - (s.refill now).tokens
          = ((1 - (s.refill now).tokens) / s.refill_rate * 1000)
            * (s.refill_rate / 1000) := by
        field_simp
      have e2 : (after_wait - now) / 1000 * s.refill_rate
          = (after_wait - now) * (s.refill_rate / 1000) := by
        ring
      rw [e1, e2]
      apply mul_le_mul_of_nonneg_right hw
      positivity
    have htok : ((s.refill now).refill after_wait).tokens
        = min s.max_tokens
            ((s.refill now).tokens + (after_wait - now) / 1000 * s.refill_rate) := by
      rfl
    rw [htok]
    have hge : 1 ≤ min s.max_tokens
        ((s.refill now).tokens + (after_wait - now) / 1000 * s.refill_rate) :=
      le_min hcap (by linarith)
    linarith

/-- C6 amended witness: a bucket with capacity 3, rate 1 and empty balance at
`t = 0` computes a 1000 ms shortfall wait; after an exactly-1000 ms measured
suspension the post-wait balance is non-negative. -/
theorem acquire_nonneg_of_full_wait_witness :
    0 < (⟨0, 0, 3, 1⟩ : RateLimiter).refill_rate ∧
    1 ≤ (⟨0, 0, 3, 1⟩ : RateLimiter).max_tokens ∧
    0 ≤ (RateLimiter.acquire ⟨0, 0, 3, 1⟩ 0 1000).tokens := by
  refine ⟨by norm_num, by norm_num, ?_⟩
  apply acquire_nonneg_of_full_wait ⟨0, 0, 3, 1⟩ 0 1000 (by norm_num) (by norm_num)
  have hr : RateLimiter.refill ⟨0, 0, 3, 1⟩ 0 = ⟨0, 0, 3, 1⟩ := by
    simp only [RateLimiter.refill]
    norm_num
  rw [hr]
  simp only [RateLimiter.waitMs]
  norm_num
